import Mathlib

/-!
Verification of the recurrence date calculator (`NextDate`) of the task
scheduler, together with the task-completion handler logic that consumes it.

Dates are modelled as (year, month, day) triples of naturals in the proleptic
Gregorian calendar, exactly the calendar implemented by Go's `time` package
for the `YYYYMMDD` dates this program manipulates.  `time.Time` values here
always sit at day granularity, so a date value suffices; `t.After(u)` on such
values is the strict ordering of calendar days, which we realise through the
rata-die style day count `ord`.
-/

namespace Scheduler

/-- A calendar date: year, month (1..12), day of month. -/
structure Date where
  y : ℕ
  m : ℕ
  d : ℕ
deriving DecidableEq, Repr

/-- `isLeapYear` from the source: `(year%4 == 0 && year%100 != 0) || (year%400 == 0)`. -/
def isLeapYear (year : ℕ) : Bool :=
  (year % 4 == 0 && year % 100 != 0) || (year % 400 == 0)

/-- Length of a month in a given year (Gregorian). -/
def daysInMonth (y m : ℕ) : ℕ :=
  match m with
  | 1 => 31
  | 2 => if isLeapYear y then 29 else 28
  | 3 => 31
  | 4 => 30
  | 5 => 31
  | 6 => 30
  | 7 => 31
  | 8 => 31
  | 9 => 30
  | 10 => 31
  | 11 => 30
  | 12 => 31
  | _ => 0

/-- A structurally valid Gregorian date (what `time.Parse("20060102", ·)` accepts,
ignoring the 4-digit-year bound which plays no role in any claim). -/
def Valid (x : Date) : Prop :=
  1 ≤ x.m ∧ x.m ≤ 12 ∧ 1 ≤ x.d ∧ x.d ≤ daysInMonth x.y x.m

instance (x : Date) : Decidable (Valid x) := by
  unfold Valid; infer_instance

/-- Days of the year preceding month `m` (0 for January). -/
def daysBeforeMonth (y m : ℕ) : ℕ :=
  let f : ℕ := if isLeapYear y then 1 else 0
  match m with
  | 1 => 0
  | 2 => 31
  | 3 => 59 + f
  | 4 => 90 + f
  | 5 => 120 + f
  | 6 => 151 + f
  | 7 => 181 + f
  | 8 => 212 + f
  | 9 => 243 + f
  | 10 => 273 + f
  | 11 => 304 + f
  | 12 => 334 + f
  | _ => 365 + f

/-- Days strictly before year `y`, counting from year 0 (closed Gregorian
leap-count formula; year 0 is a leap year). -/
def daysBeforeYear (y : ℕ) : ℕ :=
  365 * y + (y + 3) / 4 - (y + 99) / 100 + (y + 399) / 400

/-- Rata-die style day number of a date: days since 0000-01-01. -/
def ord (x : Date) : ℕ :=
  daysBeforeYear x.y + daysBeforeMonth x.y x.m + (x.d - 1)

lemma isLeapYear_iff (y : ℕ) :
    isLeapYear y = true ↔ ((y % 4 = 0 ∧ y % 100 ≠ 0) ∨ y % 400 = 0) := by
  simp [isLeapYear, Bool.or_eq_true, Bool.and_eq_true]

set_option maxHeartbeats 1600000 in
lemma daysBeforeYear_succ (y : ℕ) :
    daysBeforeYear (y + 1) = daysBeforeYear y + (if isLeapYear y then 366 else 365) := by
  rcases hb : isLeapYear y with _ | _
  · have hP : ¬((y % 4 = 0 ∧ y % 100 ≠ 0) ∨ y % 400 = 0) := by
      intro hc
      rw [← isLeapYear_iff, hb] at hc
      exact Bool.false_ne_true hc
    rw [if_neg Bool.false_ne_true]
    push_neg at hP
    unfold daysBeforeYear
    omega
  · have hP : (y % 4 = 0 ∧ y % 100 ≠ 0) ∨ y % 400 = 0 := by
      rw [← isLeapYear_iff, hb]
    rw [if_pos rfl]
    unfold daysBeforeYear
    omega

lemma daysBeforeYear_mono : Monotone daysBeforeYear := by
  apply monotone_nat_of_le_succ
  intro y
  rw [daysBeforeYear_succ]
  split <;> omega

/-- The months of a year sum to its length. -/
lemma daysBeforeMonth_add (y m : ℕ) (h1 : 1 ≤ m) (h2 : m ≤ 12) :
    daysBeforeMonth y m + daysInMonth y m = daysBeforeMonth y (m + 1) := by
  interval_cases m <;>
    rcases hb : isLeapYear y with _ | _ <;>
      simp [daysBeforeMonth, daysInMonth, hb]

lemma daysBeforeMonth_lt_year (y m d : ℕ) (h1 : 1 ≤ m) (h2 : m ≤ 12)
    (h3 : 1 ≤ d) (h4 : d ≤ daysInMonth y m) :
    daysBeforeMonth y m + (d - 1) < (if isLeapYear y then 366 else 365) := by
  interval_cases m <;>
    rcases hb : isLeapYear y with _ | _ <;>
      simp [daysInMonth, daysBeforeMonth, hb] at * <;>
      omega

/-- Successor day in the Gregorian calendar. -/
def nextDay (x : Date) : Date :=
  if x.d < daysInMonth x.y x.m then ⟨x.y, x.m, x.d + 1⟩
  else if x.m < 12 then ⟨x.y, x.m + 1, 1⟩
  else ⟨x.y + 1, 1, 1⟩

/-- `AddDate(0, 0, n)` of Go's `time` package on a day-granularity value:
advance the date by `n` calendar days. -/
def addDays (n : ℕ) (x : Date) : Date := nextDay^[n] x

lemma one_le_daysInMonth (y m : ℕ) (h1 : 1 ≤ m) (h2 : m ≤ 12) :
    1 ≤ daysInMonth y m := by
  rcases hl : isLeapYear y with _ | _ <;> interval_cases m <;>
    simp [daysInMonth, hl]

lemma valid_nextDay {x : Date} (hx : Valid x) : Valid (nextDay x) := by
  obtain ⟨h1, h2, h3, h4⟩ := hx
  unfold nextDay
  split
  · rename_i hd
    refine ⟨h1, h2, ?_, ?_⟩
    · show 1 ≤ x.d + 1
      omega
    · show x.d + 1 ≤ daysInMonth x.y x.m
      omega
  · rename_i hd
    split
    · rename_i hm
      refine ⟨?_, ?_, ?_, ?_⟩
      · show 1 ≤ x.m + 1
        omega
      · show x.m + 1 ≤ 12
        omega
      · show 1 ≤ (1 : ℕ)
        omega
      · show 1 ≤ daysInMonth x.y (x.m + 1)
        exact one_le_daysInMonth x.y (x.m + 1) (by omega) (by omega)
    · refine ⟨?_, ?_, ?_, ?_⟩
      · show 1 ≤ (1 : ℕ)
        omega
      · show (1 : ℕ) ≤ 12
        omega
      · show 1 ≤ (1 : ℕ)
        omega
      · show 1 ≤ daysInMonth (x.y + 1) 1
        exact one_le_daysInMonth (x.y + 1) 1 (le_refl 1) (by omega)

lemma ord_nextDay {x : Date} (hx : Valid x) : ord (nextDay x) = ord x + 1 := by
  obtain ⟨h1, h2, h3, h4⟩ := hx
  unfold nextDay
  split
  · simp only [ord]
    omega
  · rename_i hd
    split
    · rename_i hm
      have hadd := daysBeforeMonth_add x.y x.m h1 h2
      simp only [ord]
      omega
    · rename_i hm
      have hm12 : x.m = 12 := by omega
      have hd31 : x.d = 31 := by
        have ha : x.d ≤ daysInMonth x.y 12 := by rw [← hm12]; exact h4
        have hb2 : ¬ x.d < daysInMonth x.y 12 := by rw [← hm12]; exact hd
        have hc : daysInMonth x.y 12 = 31 := rfl
        omega
      have hy := daysBeforeYear_succ x.y
      have hdbm : daysBeforeMonth x.y 12 =
          334 + (if isLeapYear x.y then 1 else 0) := rfl
      have hdbm1 : daysBeforeMonth (x.y + 1) 1 = 0 := rfl
      simp only [ord, hm12, hd31, hdbm1]
      rcases hc : isLeapYear x.y with _ | _ <;> rw [hc] at hy hdbm <;>
        simp at hy hdbm <;> omega

lemma valid_addDays : ∀ (n : ℕ) {x : Date}, Valid x → Valid (addDays n x) := by
  intro n
  induction n with
  | zero => intro x hx; exact hx
  | succ k ih =>
    intro x hx
    have h1 : addDays (k + 1) x = addDays k (nextDay x) := by
      simp [addDays, Function.iterate_succ_apply]
    rw [h1]
    exact ih (valid_nextDay hx)

lemma ord_addDays : ∀ (n : ℕ) {x : Date}, Valid x →
    ord (addDays n x) = ord x + n := by
  intro n
  induction n with
  | zero => intro x hx; simp [addDays]
  | succ k ih =>
    intro x hx
    have h1 : addDays (k + 1) x = addDays k (nextDay x) := by
      simp [addDays, Function.iterate_succ_apply]
    rw [h1, ih (valid_nextDay hx), ord_nextDay hx]
    omega

lemma addDays_addDays (a b : ℕ) (x : Date) :
    addDays a (addDays b x) = addDays (a + b) x := by
  simp [addDays, ← Function.iterate_add_apply]

/-- A strictly later year gives a strictly larger day number. -/
lemma ord_lt_of_year_lt {x z : Date} (hx : Valid x) (_hz : Valid z)
    (h : x.y < z.y) : ord x < ord z := by
  obtain ⟨h1, h2, h3, h4⟩ := hx
  have hb := daysBeforeMonth_lt_year x.y x.m x.d h1 h2 h3 h4
  have hsucc := daysBeforeYear_succ x.y
  have hmono : daysBeforeYear (x.y + 1) ≤ daysBeforeYear z.y :=
    daysBeforeYear_mono h
  have hz0 : daysBeforeYear z.y ≤ ord z := by
    simp only [ord]; omega
  have hx0 : ord x = daysBeforeYear x.y + daysBeforeMonth x.y x.m + (x.d - 1) := rfl
  rcases hc : isLeapYear x.y with _ | _ <;> rw [hc] at hb hsucc <;>
    simp at hb hsucc <;> omega

/-- `AddDate(1, 0, 0)` of Go's `time` package on a valid date: same month and
day one year later, except that Go's `Date` normalisation rolls the
nonexistent February 29 of a non-leap target year forward to March 1. -/
def addYear1 (x : Date) : Date :=
  if x.m = 2 ∧ x.d = 29 ∧ isLeapYear (x.y + 1) = false then ⟨x.y + 1, 3, 1⟩
  else ⟨x.y + 1, x.m, x.d⟩

/-- `time.Date(y, m+1, 0, ...)`: day zero of the following month, i.e. the
last day of month `x.m` of year `x.y`. -/
def monthEndSnap (x : Date) : Date :=
  ⟨x.y, x.m, daysInMonth x.y x.m⟩

/-- The first annual step of `NextDate` (taken before the step-until-future
loop).  The day-31 snap here is guarded by `parsedDate.Day() == 31`, the
day-of-month of the original anchor, which is this function's argument. -/
def ystepFirst (anchor : Date) : Date :=
  if anchor.m = 2 ∧ anchor.d = 29 then
    let x := addYear1 anchor
    if isLeapYear x.y = false then ⟨x.y, 3, 1⟩ else x
  else
    let x := addYear1 anchor
    if anchor.d = 31 then monthEndSnap x else x

/-- One iteration of the annual step-until-future loop of `NextDate`.  The
day-31 snap here is guarded by `nextDate.Day() == 31`, the day-of-month of
the freshly advanced date. -/
def ystepLoop (cur : Date) : Date :=
  if cur.m = 2 ∧ cur.d = 29 then
    let x := addYear1 cur
    if isLeapYear x.y = false then ⟨x.y, 3, 1⟩ else x
  else
    let x := addYear1 cur
    if x.d = 31 then monthEndSnap x else x

/-- `u.After(v)` of Go's `time` package on day-granularity values: `u` denotes
a strictly later calendar day than `v`. -/
def dateAfter (u v : Date) : Bool :=
  decide (ord v < ord u)

/-- The `for !nextDate.After(now) { nextDate = step(nextDate) }` loop of
`NextDate`, with an explicit iteration bound.  `NextDate` enters it with
bound `ord now + 1`, which (each step advancing the date by at least one
day) is never exhausted before the loop guard fails. -/
def stepLoop (step : Date → Date) (now : Date) : ℕ → Date → Date
  | 0, cur => cur
  | fuel + 1, cur => if dateAfter cur now then cur else stepLoop step now fuel (step cur)

/-- Digit value of a decimal character. -/
def digitVal (c : Char) : ℕ := c.toNat - 48

/-- `time.Parse("20060102", s)`: exactly eight decimal digits, split 4-2-2,
accepted only if they denote a valid Gregorian calendar date. -/
def parseDate (s : String) : Option Date :=
  match s.data with
  | [c1, c2, c3, c4, c5, c6, c7, c8] =>
    if (c1.isDigit && c2.isDigit && c3.isDigit && c4.isDigit &&
        c5.isDigit && c6.isDigit && c7.isDigit && c8.isDigit) then
      let y := ((digitVal c1 * 10 + digitVal c2) * 10 + digitVal c3) * 10 + digitVal c4
      let m := digitVal c5 * 10 + digitVal c6
      let d := digitVal c7 * 10 + digitVal c8
      if 1 ≤ m ∧ m ≤ 12 ∧ 1 ≤ d ∧ d ≤ daysInMonth y m then some ⟨y, m, d⟩
      else none
    else none
  | _ => none

/-- Decimal value of a digit string. -/
def digitsVal (l : List Char) : ℕ :=
  l.foldl (fun a c => a * 10 + digitVal c) 0

/-- `strconv.Atoi`: optional sign followed by at least one decimal digit.
(Go additionally errors on out-of-range values; every such string is mapped
by `NextDate` to the same invalid-interval failure as a parse error, because
the magnitude necessarily exceeds 400, so the unbounded model is faithful
there.) -/
def atoi (l : List Char) : Option ℤ :=
  match l with
  | [] => none
  | c :: rest =>
    if c = '+' then
      if rest ≠ [] ∧ rest.all Char.isDigit then some (digitsVal rest) else none
    else if c = '-' then
      if rest ≠ [] ∧ rest.all Char.isDigit then some (-(digitsVal rest : ℤ)) else none
    else if (c :: rest).all Char.isDigit then some (digitsVal (c :: rest))
    else none

/-- `strings.TrimSpace`: drop whitespace from both ends. -/
def trimSpace (l : List Char) : List Char :=
  ((l.dropWhile Char.isWhitespace).reverse.dropWhile Char.isWhitespace).reverse

/-- `strings.HasPrefix(s, "d ")`. -/
def startsWithDSpace (s : String) : Bool :=
  match s.data with
  | c1 :: c2 :: _ => c1 == 'd' && c2 == ' '
  | _ => false

/-- The four error kinds `NextDate` can report (each carries the offending
text interpolated into the corresponding `fmt.Errorf` message). -/
inductive NdErr where
  | emptyRule : NdErr
  | invalidDate : String → NdErr
  | invalidInterval : String → NdErr
  | unsupportedRule : String → NdErr
deriving DecidableEq, Repr

/-- The core of `NextDate` from the source, up to the final formatting step:

```go
func NextDate(now time.Time, date string, repeat string) (string, error) {
    if repeat == "" { return "", errors.New(...) }
    parsedDate, err := time.Parse(DateFormat, date)
    if err != nil { return "", errors.New(...) }
    nextDate := parsedDate
    switch {
    case strings.HasPrefix(repeat, "d "):
        daysStr := strings.TrimSpace(strings.TrimPrefix(repeat, "d "))
        days, err := strconv.Atoi(daysStr)
        if err != nil || days <= 0 || days > 400 { return "", errors.New(...) }
        nextDate = nextDate.AddDate(0, 0, days)
        for !nextDate.After(now) { nextDate = nextDate.AddDate(0, 0, days) }
    case repeat == "y":
        // first annual step (ystepFirst), then
        for !nextDate.After(now) { /* ystepLoop */ }
    default: return "", errors.New(...)
    }
    return nextDate.Format(DateFormat), nil
}
```

`strings.TrimPrefix(repeat, "d ")` is the 2-character drop, the prefix being
present in that branch. -/
def nextDateD (now : Date) (dateStr : String) (ruleStr : String) : Except NdErr Date :=
  if ruleStr = "" then .error .emptyRule
  else
    match parseDate dateStr with
    | none => .error (.invalidDate dateStr)
    | some parsed =>
      if startsWithDSpace ruleStr then
        let daysStr := trimSpace (ruleStr.data.drop 2)
        match atoi daysStr with
        | none => .error (.invalidInterval (String.mk daysStr))
        | some days =>
          if days ≤ 0 ∨ 400 < days then .error (.invalidInterval (String.mk daysStr))
          else
            .ok (stepLoop (addDays days.toNat) now (ord now + 1)
                  (addDays days.toNat parsed))
      else if ruleStr = "y" then
        .ok (stepLoop ystepLoop now (ord now + 1) (ystepFirst parsed))
      else .error (.unsupportedRule ruleStr)

/-- Left-pad a decimal numeral with zeros (`%0*d`). -/
def padNum (w n : ℕ) : String :=
  String.mk (List.replicate (w - (toString n).length) '0') ++ toString n

/-- `t.Format("20060102")`. -/
def formatDate (x : Date) : String :=
  padNum 4 x.y ++ padNum 2 x.m ++ padNum 2 x.d

/-- `NextDate` from the source: the computation of `nextDateD` followed by
the final `nextDate.Format(DateFormat)`. -/
def NextDate (now : Date) (dateStr : String) (ruleStr : String) : Except NdErr String :=
  (nextDateD now dateStr ruleStr).map formatDate

deriving instance DecidableEq for Except

/-- A stored `scheduler` row, as carried by the `Task` struct. -/
structure Task where
  id : ℕ
  date : String
  title : String
  comment : String
  repeatRule : String
deriving DecidableEq, Repr

/-- Outcome of marking a task done. -/
inductive DoneResult where
  | deleted : DoneResult
  | failed : NdErr → DoneResult
  | updated : Task → DoneResult
deriving DecidableEq, Repr

/-- The state change performed by `handleDoneTask` on the stored task it read
(steps 3–5 of the handler): a task with an empty rule is deleted; otherwise
`NextDate(now, t.Date, t.Repeat)` is computed, an error is reported without
any change, and on success the row is updated by
`UPDATE scheduler SET date = ? WHERE id = ?` — only the date column. -/
def handleDoneTask (now : Date) (t : Task) : DoneResult :=
  if t.repeatRule = "" then .deleted
  else
    match NextDate now t.date t.repeatRule with
    | .error e => .failed e
    | .ok newDate => .updated { t with date := newDate }

/-- `ystepFirst` with the day-31 month-end snap assignment removed. -/
def ystepFirstNoSnap (anchor : Date) : Date :=
  if anchor.m = 2 ∧ anchor.d = 29 then
    let x := addYear1 anchor
    if isLeapYear x.y = false then ⟨x.y, 3, 1⟩ else x
  else addYear1 anchor

/-- `ystepLoop` with the day-31 month-end snap assignment removed. -/
def ystepLoopNoSnap (cur : Date) : Date :=
  if cur.m = 2 ∧ cur.d = 29 then
    let x := addYear1 cur
    if isLeapYear x.y = false then ⟨x.y, 3, 1⟩ else x
  else addYear1 cur

/-- `nextDateD` with both day-31 month-end snap assignments removed. -/
def nextDateDNoSnap (now : Date) (dateStr : String) (ruleStr : String) : Except NdErr Date :=
  if ruleStr = "" then .error .emptyRule
  else
    match parseDate dateStr with
    | none => .error (.invalidDate dateStr)
    | some parsed =>
      if startsWithDSpace ruleStr then
        let daysStr := trimSpace (ruleStr.data.drop 2)
        match atoi daysStr with
        | none => .error (.invalidInterval (String.mk daysStr))
        | some days =>
          if days ≤ 0 ∨ 400 < days then .error (.invalidInterval (String.mk daysStr))
          else
            .ok (stepLoop (addDays days.toNat) now (ord now + 1)
                  (addDays days.toNat parsed))
      else if ruleStr = "y" then
        .ok (stepLoop ystepLoopNoSnap now (ord now + 1) (ystepFirstNoSnap parsed))
      else .error (.unsupportedRule ruleStr)

/-- `NextDate` with both day-31 month-end snap assignments removed. -/
def NextDateNoSnap (now : Date) (dateStr : String) (ruleStr : String) : Except NdErr String :=
  (nextDateDNoSnap now dateStr ruleStr).map formatDate

lemma daysInMonth_year (y1 y2 m : ℕ) (hm : m ≠ 2) :
    daysInMonth y1 m = daysInMonth y2 m := by
  rcases m with _ | _ | _ | _ | _ | _ | _ | _ | _ | _ | _ | _ | _ | m <;>
    first
    | rfl
    | exact absurd rfl hm

lemma daysInMonth_le_31 (y m : ℕ) : daysInMonth y m ≤ 31 := by
  rcases m with _ | _ | _ | _ | _ | _ | _ | _ | _ | _ | _ | _ | _ | m <;>
    simp only [daysInMonth] <;> first | omega | (split <;> omega)

lemma daysInMonth_feb_le (y : ℕ) : daysInMonth y 2 ≤ 29 := by
  simp only [daysInMonth]
  split <;> omega

lemma daysInMonth_feb_ge (y : ℕ) : 28 ≤ daysInMonth y 2 := by
  simp only [daysInMonth]
  split <;> omega

/-- A valid day-31 anchor sits in a 31-day month, whose length does not vary
with the year. -/
lemma daysInMonth_of_31 {x : Date} (hx : Valid x) (h31 : x.d = 31) (y2 : ℕ) :
    daysInMonth y2 x.m = 31 := by
  obtain ⟨h1, h2, h3, h4⟩ := hx
  have hm2 : x.m ≠ 2 := by
    intro hm
    have := daysInMonth_feb_le x.y
    rw [hm] at h4
    omega
  have hy := daysInMonth_year x.y y2 x.m hm2
  have hle := daysInMonth_le_31 x.y x.m
  omega

lemma addYear1_of_not29 {x : Date} (h : ¬ (x.m = 2 ∧ x.d = 29)) :
    addYear1 x = ⟨x.y + 1, x.m, x.d⟩ := by
  unfold addYear1
  rw [if_neg]
  intro hc
  exact h ⟨hc.1, hc.2.1⟩

/-- A constructor-shaped validity introduction rule. -/
lemma valid_mk {y m d : ℕ} (h1 : 1 ≤ m) (h2 : m ≤ 12) (h3 : 1 ≤ d)
    (h4 : d ≤ daysInMonth y m) : Valid ⟨y, m, d⟩ := ⟨h1, h2, h3, h4⟩

/-- One iteration of the annual loop: the result is valid, lies exactly one
year later, and either keeps the month/day or is the March-1 image of a
February 29. -/
lemma ystepLoop_cases {x : Date} (hx : Valid x) :
    Valid (ystepLoop x) ∧ (ystepLoop x).y = x.y + 1 ∧
      (((ystepLoop x).m = x.m ∧ (ystepLoop x).d = x.d) ∨
        (x.m = 2 ∧ x.d = 29 ∧ (ystepLoop x).m = 3 ∧ (ystepLoop x).d = 1)) := by
  obtain ⟨h1, h2, h3, h4⟩ := hx
  unfold ystepLoop
  by_cases c1 : x.m = 2 ∧ x.d = 29
  · rw [if_pos c1]
    rcases hl : isLeapYear (x.y + 1) with _ | _
    · have ha : addYear1 x = ⟨x.y + 1, 3, 1⟩ := by
        unfold addYear1
        rw [if_pos ⟨c1.1, c1.2, hl⟩]
      rw [ha, if_pos hl]
      refine ⟨valid_mk (by omega) (by omega) (by omega) ?_, rfl,
        Or.inr ⟨c1.1, c1.2, rfl, rfl⟩⟩
      exact one_le_daysInMonth (x.y + 1) 3 (by omega) (by omega)
    · have ha : addYear1 x = ⟨x.y + 1, x.m, x.d⟩ := by
        unfold addYear1
        rw [if_neg]
        intro hc
        rw [hl] at hc
        exact absurd hc.2.2 (by decide)
      rw [ha, if_neg (by simp [hl])]
      refine ⟨valid_mk h1 h2 h3 ?_, rfl, Or.inl ⟨rfl, rfl⟩⟩
      rw [c1.1, c1.2]
      have : daysInMonth (x.y + 1) 2 = 29 := by
        simp [daysInMonth, hl]
      omega
  · rw [if_neg c1, addYear1_of_not29 c1]
    by_cases h31 : x.d = 31
    · rw [if_pos h31]
      have hdim : daysInMonth (x.y + 1) x.m = 31 :=
        daysInMonth_of_31 ⟨h1, h2, h3, h4⟩ h31 (x.y + 1)
      unfold monthEndSnap
      refine ⟨valid_mk h1 h2 ?_ ?_, rfl, Or.inl ⟨rfl, ?_⟩⟩
      · show 1 ≤ daysInMonth (x.y + 1) x.m
        omega
      · show daysInMonth (x.y + 1) x.m ≤ daysInMonth (x.y + 1) x.m
        omega
      · show daysInMonth (x.y + 1) x.m = x.d
        omega
    · rw [if_neg h31]
      refine ⟨valid_mk h1 h2 h3 ?_, rfl, Or.inl ⟨rfl, rfl⟩⟩
      by_cases hm2 : x.m = 2
      · have hge := daysInMonth_feb_ge (x.y + 1)
        have hle := daysInMonth_feb_le x.y
        have hne29 : x.d ≠ 29 := fun hd => c1 ⟨hm2, hd⟩
        rw [hm2] at h4 ⊢
        omega
      · rw [daysInMonth_year x.y (x.y + 1) x.m hm2] at h4
        omega

/-- On a valid date the two step functions coincide: the first step's snap is
guarded by the anchor's day, the loop's by the advanced date's day, and a
one-year advance of a valid non-Feb-29 date keeps the day-of-month. -/
lemma ystepFirst_eq_loop (x : Date) : ystepFirst x = ystepLoop x := by
  unfold ystepFirst ystepLoop
  by_cases c1 : x.m = 2 ∧ x.d = 29
  · rw [if_pos c1, if_pos c1]
  · rw [if_neg c1, if_neg c1, addYear1_of_not29 c1]

lemma ord_ystepLoop {x : Date} (hx : Valid x) : ord x < ord (ystepLoop x) := by
  obtain ⟨hv, hy, _⟩ := ystepLoop_cases hx
  exact ord_lt_of_year_lt hx hv (by omega)

/-- Invariant preservation through the step-until-future loop, together with
the loop's postcondition: the result is strictly after `now` (the loop's exit
condition, reachable because every step strictly advances the date and the
entry bound covers the whole gap) and never before the entry date. -/
lemma stepLoop_after (step : Date → Date) (now : Date) (P : Date → Prop)
    (hP : ∀ z, P z → P (step z)) (hord : ∀ z, P z → ord z < ord (step z)) :
    ∀ fuel cur, P cur → ord now < ord cur + fuel →
      P (stepLoop step now fuel cur) ∧
        ord now < ord (stepLoop step now fuel cur) ∧
        ord cur ≤ ord (stepLoop step now fuel cur) := by
  intro fuel
  induction fuel with
  | zero =>
    intro cur hc hf
    exact ⟨hc, by simpa [stepLoop] using hf, le_refl _⟩
  | succ f ih =>
    intro cur hc hf
    simp only [stepLoop]
    by_cases hA : dateAfter cur now = true
    · rw [if_pos hA]
      rw [dateAfter, decide_eq_true_eq] at hA
      exact ⟨hc, hA, le_refl _⟩
    · rw [if_neg hA]
      have hstep := hord cur hc
      obtain ⟨p1, p2, p3⟩ := ih (step cur) (hP cur hc) (by omega)
      exact ⟨p1, p2, by omega⟩

/-- Exact characterisation of the daily loop: the result is the entry date
advanced by the least number of `n`-day strides that lands strictly after
`now`. -/
lemma stepLoop_daily (n : ℕ) (hn : 1 ≤ n) (now : Date) :
    ∀ fuel cur, Valid cur → ord now < ord cur + fuel →
      ∃ k, stepLoop (addDays n) now fuel cur = addDays (k * n) cur ∧
        ord now < ord cur + k * n ∧
        ∀ j, j < k → ¬ (ord now < ord cur + j * n) := by
  intro fuel
  induction fuel with
  | zero =>
    intro cur hc hf
    refine ⟨0, by simp [stepLoop, addDays], by simpa using hf, by omega⟩
  | succ f ih =>
    intro cur hc hf
    simp only [stepLoop]
    by_cases hA : dateAfter cur now = true
    · rw [if_pos hA]
      rw [dateAfter, decide_eq_true_eq] at hA
      refine ⟨0, by simp [addDays], by simpa using hA, by omega⟩
    · rw [if_neg hA]
      have hle : ¬ (ord now < ord cur) := by
        rw [dateAfter, decide_eq_true_eq] at hA
        exact hA
      have hvs : Valid (addDays n cur) := valid_addDays n hc
      have hos : ord (addDays n cur) = ord cur + n := ord_addDays n hc
      obtain ⟨k, hk1, hk2, hk3⟩ := ih (addDays n cur) hvs (by omega)
      have he : (k + 1) * n = k * n + n := by ring
      refine ⟨k + 1, ?_, ?_, ?_⟩
      · rw [hk1, addDays_addDays, he]
      · rw [he]
        rw [hos] at hk2
        omega
      · intro j hj
        rcases j with _ | i
        · rw [Nat.zero_mul]
          omega
        · have hei : (i + 1) * n = i * n + n := by ring
          rw [hei]
          have h3 := hk3 i (by omega)
          rw [hos] at h3
          omega

/-- Two loop bodies that agree on an invariant class drive the loop to the
same result. -/
lemma stepLoop_congr (s1 s2 : Date → Date) (now : Date) (P : Date → Prop)
    (hP : ∀ z, P z → P (s1 z)) (heq : ∀ z, P z → s1 z = s2 z) :
    ∀ fuel cur, P cur → stepLoop s1 now fuel cur = stepLoop s2 now fuel cur := by
  intro fuel
  induction fuel with
  | zero => intro cur hc; rfl
  | succ f ih =>
    intro cur hc
    simp only [stepLoop]
    by_cases hA : dateAfter cur now = true
    · rw [if_pos hA, if_pos hA]
    · rw [if_neg hA, if_neg hA, ← heq cur hc]
      exact ih (s1 cur) (hP cur hc)

/-- What `time.Parse` accepts is a valid date. -/
lemma parseDate_valid {s : String} {x : Date} (h : parseDate s = some x) :
    Valid x := by
  unfold parseDate at h
  split at h
  · split at h
    · dsimp only at h
      split at h
      · rename_i hvalid
        injection h with h
        rw [← h]
        exact hvalid
      · exact absurd h (by simp)
    · exact absurd h (by simp)
  · exact absurd h (by simp)

/-- Every successful run of the core computation goes through one of the two
loops, entered on the parsed anchor. -/
lemma nextDateD_ok_shape {now : Date} {ds rs : String} {x : Date}
    (hok : nextDateD now ds rs = .ok x) :
    ∃ a, parseDate ds = some a ∧
      ((∃ n : ℕ, 1 ≤ n ∧ n ≤ 400 ∧
          x = stepLoop (addDays n) now (ord now + 1) (addDays n a)) ∨
        x = stepLoop ystepLoop now (ord now + 1) (ystepFirst a)) := by
  unfold nextDateD at hok
  split at hok
  · exact absurd hok (by simp)
  · split at hok
    · exact absurd hok (by simp)
    · rename_i a hpd
      split at hok
      · dsimp only at hok
        split at hok
        · exact absurd hok (by simp)
        · rename_i days hatoi
          split at hok
          · exact absurd hok (by simp)
          · rename_i hguard
            push_neg at hguard
            refine ⟨a, hpd, Or.inl ⟨days.toNat, by omega, by omega, ?_⟩⟩
            injection hok with h
            exact h.symm
      · split at hok
        · refine ⟨a, hpd, Or.inr ?_⟩
          injection hok with h
          exact h.symm
        · exact absurd hok (by simp)

/-- The month/day relation the annual loop maintains between the original
anchor and the running date. -/
def YInv (a x : Date) : Prop :=
  Valid x ∧
    ((x.m = a.m ∧ x.d = a.d) ∨ (a.m = 2 ∧ a.d = 29 ∧ x.m = 3 ∧ x.d = 1))

lemma yinv_step {a x : Date} (h : YInv a x) : YInv a (ystepLoop x) := by
  obtain ⟨hv, hmd⟩ := h
  obtain ⟨hv2, _, hs⟩ := ystepLoop_cases hv
  refine ⟨hv2, ?_⟩
  rcases hs with ⟨hm, hd⟩ | ⟨hm2, hd29, hm3, hd1⟩
  · rcases hmd with ⟨pm, pd⟩ | ⟨pm2, pd29, pm3, pd1⟩
    · exact Or.inl ⟨by omega, by omega⟩
    · exact Or.inr ⟨pm2, pd29, by omega, by omega⟩
  · rcases hmd with ⟨pm, pd⟩ | ⟨pm2, pd29, pm3, pd1⟩
    · exact Or.inr ⟨by omega, by omega, hm3, hd1⟩
    · exact Or.inr ⟨pm2, pd29, hm3, hd1⟩

lemma yinv_first {a : Date} (ha : Valid a) : YInv a (ystepFirst a) := by
  rw [ystepFirst_eq_loop]
  exact yinv_step ⟨ha, Or.inl ⟨rfl, rfl⟩⟩

lemma yinv_iter {a : Date} (ha : Valid a) (j : ℕ) :
    YInv a (ystepLoop^[j] (ystepFirst a)) := by
  induction j with
  | zero => exact yinv_first ha
  | succ i ih =>
    rw [Function.iterate_succ_apply']
    exact yinv_step ih

lemma ystepLoop_eq_nosnap {x : Date} (hx : Valid x) :
    ystepLoop x = ystepLoopNoSnap x := by
  unfold ystepLoop ystepLoopNoSnap
  by_cases c1 : x.m = 2 ∧ x.d = 29
  · rw [if_pos c1, if_pos c1]
  · rw [if_neg c1, if_neg c1, addYear1_of_not29 c1]
    by_cases h31 : x.d = 31
    · rw [if_pos h31]
      unfold monthEndSnap
      have hdim : daysInMonth (x.y + 1) x.m = 31 := daysInMonth_of_31 hx h31 (x.y + 1)
      show (⟨x.y + 1, x.m, daysInMonth (x.y + 1) x.m⟩ : Date) = ⟨x.y + 1, x.m, x.d⟩
      rw [hdim, h31]
    · rw [if_neg h31]

lemma ystepFirst_eq_nosnap {x : Date} (hx : Valid x) :
    ystepFirst x = ystepFirstNoSnap x :=
  calc ystepFirst x = ystepLoop x := ystepFirst_eq_loop x
    _ = ystepLoopNoSnap x := ystepLoop_eq_nosnap hx
    _ = ystepFirstNoSnap x := rfl

/-- C5: for every reference date and every anchor string — including anchor
strings that are not parseable as `YYYYMMDD` — `NextDate` with the empty rule
fails with the empty-rule error: the empty-rule check precedes anchor
parsing. -/
theorem empty_rule_always_first (now : Date) (anchorStr : String) :
    NextDate now anchorStr "" = .error .emptyRule := by
  unfold NextDate nextDateD
  rw [if_pos rfl]
  rfl

/-- C6: for every reference date, every non-empty rule string — valid or not —
and every anchor string that does not parse as a `YYYYMMDD` date, `NextDate`
fails with the invalid-date error: anchor parsing precedes rule
classification. -/
theorem invalid_date_before_rule (now : Date) (anchorStr ruleStr : String)
    (hr : ruleStr ≠ "") (hp : parseDate anchorStr = none) :
    NextDate now anchorStr ruleStr = .error (.invalidDate anchorStr) := by
  unfold NextDate nextDateD
  rw [if_neg hr, hp]
  rfl

theorem invalid_date_before_rule_witness :
    NextDate ⟨2024, 1, 26⟩ "2024013" "weekly" = .error (.invalidDate "2024013") :=
  invalid_date_before_rule ⟨2024, 1, 26⟩ "2024013" "weekly" (by decide) (by decide)

/-- C1: evaluating `NextDate` at reference `20240126`, anchor `20240229`,
rule `"y"`: the code rolls the missing February 29 of 2025 forward to
March 1 and returns `20250301`; it does not clamp to February 28
(`20250228`), the value the claim — and the repository's own
`TestNextDate` table — expects. -/
theorem feb29_anchor_eval :
    NextDate ⟨2024, 1, 26⟩ "20240229" "y" = .ok "20250301" ∧
      NextDate ⟨2024, 1, 26⟩ "20240229" "y" ≠ .ok "20250228" := by
  constructor
  · decide
  · decide

/-- C8: marking done a stored task with a non-empty recurrence rule whose
`NextDate` computation succeeds updates exactly the date column: the result
is an update (not a deletion), and the updated row keeps the id, title,
comment and repeat of the original. -/
theorem done_task_frame (now : Date) (t : Task) (nd : String)
    (hne : t.repeatRule ≠ "")
    (hnd : NextDate now t.date t.repeatRule = .ok nd) :
    handleDoneTask now t = .updated { t with date := nd } ∧
      ∀ t2, handleDoneTask now t = .updated t2 →
        t2.id = t.id ∧ t2.title = t.title ∧ t2.comment = t.comment ∧
          t2.repeatRule = t.repeatRule ∧ t2.date = nd := by
  have h1 : handleDoneTask now t = .updated { t with date := nd } := by
    unfold handleDoneTask
    rw [if_neg hne, hnd]
  refine ⟨h1, ?_⟩
  intro t2 h2
  rw [h1] at h2
  injection h2 with h3
  rw [← h3]
  exact ⟨rfl, rfl, rfl, rfl, rfl⟩

theorem done_task_frame_witness :
    handleDoneTask ⟨2024, 1, 26⟩ ⟨1, "20240126", "t", "c", "d 7"⟩ =
        .updated { (⟨1, "20240126", "t", "c", "d 7"⟩ : Task) with date := "20240202" } ∧
      ∀ t2, handleDoneTask ⟨2024, 1, 26⟩ ⟨1, "20240126", "t", "c", "d 7"⟩ = .updated t2 →
        t2.id = (⟨1, "20240126", "t", "c", "d 7"⟩ : Task).id ∧
          t2.title = (⟨1, "20240126", "t", "c", "d 7"⟩ : Task).title ∧
          t2.comment = (⟨1, "20240126", "t", "c", "d 7"⟩ : Task).comment ∧
          t2.repeatRule = (⟨1, "20240126", "t", "c", "d 7"⟩ : Task).repeatRule ∧
          t2.date = "20240202" :=
  done_task_frame ⟨2024, 1, 26⟩ ⟨1, "20240126", "t", "c", "d 7"⟩ "20240202"
    (by decide) (by decide)

/-- C2: for every reference date, every parseable anchor and every daily rule
`"d n"` with `1 ≤ n ≤ 400`, `NextDate` succeeds with the anchor advanced by
`k·n` days for some `k ≥ 1`, the result is strictly after the reference, and
`k` is the smallest positive stride count whose landing date is after the
reference. -/
theorem daily_rule_minimal (now : Date) (anchorStr ruleStr : String) (a : Date) (n : ℕ)
    (hparse : parseDate anchorStr = some a)
    (hpre : startsWithDSpace ruleStr = true)
    (hatoi : atoi (trimSpace (ruleStr.data.drop 2)) = some (n : ℤ))
    (hn1 : 1 ≤ n) (hn2 : n ≤ 400) :
    ∃ k, 1 ≤ k ∧
      nextDateD now anchorStr ruleStr = .ok (addDays (k * n) a) ∧
      NextDate now anchorStr ruleStr = .ok (formatDate (addDays (k * n) a)) ∧
      ord now < ord (addDays (k * n) a) ∧
      ∀ j, 1 ≤ j → j < k → ¬ (ord now < ord (addDays (j * n) a)) := by
  have hva : Valid a := parseDate_valid hparse
  have hne : ruleStr ≠ "" := by
    intro h0
    rw [h0] at hpre
    exact absurd hpre (by decide)
  have htn : ((n : ℤ)).toNat = n := by omega
  have hcore : nextDateD now anchorStr ruleStr =
      .ok (stepLoop (addDays n) now (ord now + 1) (addDays n a)) := by
    unfold nextDateD
    rw [if_neg hne, hparse]
    dsimp only
    rw [if_pos hpre]
    rw [hatoi]
    dsimp only
    rw [if_neg (show ¬ ((n : ℤ) ≤ 0 ∨ 400 < (n : ℤ)) by omega), htn]
  obtain ⟨k, hk1, hk2, hk3⟩ := stepLoop_daily n hn1 now (ord now + 1) (addDays n a)
    (valid_addDays n hva) (by omega)
  have hfix : ord (addDays n a) = ord a + n := ord_addDays n hva
  have hres : nextDateD now anchorStr ruleStr = .ok (addDays ((k + 1) * n) a) := by
    rw [hcore, hk1, addDays_addDays]
    have he : k * n + n = (k + 1) * n := by ring
    rw [he]
  refine ⟨k + 1, by omega, hres, ?_, ?_, ?_⟩
  · unfold NextDate
    rw [hres]
    rfl
  · rw [ord_addDays ((k + 1) * n) hva]
    rw [hfix] at hk2
    have he : (k + 1) * n = k * n + n := by ring
    rw [he]
    omega
  · intro j hj1 hjk
    have h3 := hk3 (j - 1) (by omega)
    rw [hfix] at h3
    rw [ord_addDays (j * n) hva]
    have hj : j * n = n + (j - 1) * n := by
      have hsplit : j = 1 + (j - 1) := by omega
      calc j * n = (1 + (j - 1)) * n := by rw [← hsplit]
        _ = n + (j - 1) * n := by ring
    rw [hj]
    omega

theorem daily_rule_minimal_witness :
    ∃ k, 1 ≤ k ∧
      nextDateD ⟨2024, 1, 26⟩ "20200101" "d 400" = .ok (addDays (k * 400) ⟨2020, 1, 1⟩) ∧
      NextDate ⟨2024, 1, 26⟩ "20200101" "d 400" =
        .ok (formatDate (addDays (k * 400) ⟨2020, 1, 1⟩)) ∧
      ord ⟨2024, 1, 26⟩ < ord (addDays (k * 400) ⟨2020, 1, 1⟩) ∧
      ∀ j, 1 ≤ j → j < k →
        ¬ (ord ⟨2024, 1, 26⟩ < ord (addDays (j * 400) ⟨2020, 1, 1⟩)) :=
  daily_rule_minimal ⟨2024, 1, 26⟩ "20200101" "d 400" ⟨2020, 1, 1⟩ 400
    (by decide) (by decide) (by decide) (by decide) (by decide)

/-- C4: a successful annual computation returns a date strictly after the
reference whose month and day are those of the anchor, unless the anchor is a
February 29 rolled to March 1 by the leap-day policy (the day-31 snap never
alters the month/day). -/
theorem yearly_month_day (now : Date) (anchorStr : String) (a r : Date)
    (hparse : parseDate anchorStr = some a)
    (hok : nextDateD now anchorStr "y" = .ok r) :
    ord now < ord r ∧
      NextDate now anchorStr "y" = .ok (formatDate r) ∧
      ((r.m = a.m ∧ r.d = a.d) ∨ (a.m = 2 ∧ a.d = 29 ∧ r.m = 3 ∧ r.d = 1)) := by
  have hva : Valid a := parseDate_valid hparse
  have hcore : nextDateD now anchorStr "y" =
      .ok (stepLoop ystepLoop now (ord now + 1) (ystepFirst a)) := by
    unfold nextDateD
    rw [if_neg (show ("y" : String) ≠ "" by decide), hparse]
    dsimp only
    rw [if_neg (show ¬ (startsWithDSpace "y" = true) by decide), if_pos rfl]
  rw [hcore] at hok
  injection hok with hr
  obtain ⟨hPres, hafter, _⟩ := stepLoop_after ystepLoop now (YInv a)
    (fun z hz => yinv_step hz)
    (fun z hz => ord_ystepLoop hz.1)
    (ord now + 1) (ystepFirst a) (yinv_first hva) (by omega)
  rw [hr] at hPres hafter
  exact ⟨hafter, by unfold NextDate; rw [hcore, hr]; rfl, hPres.2⟩

theorem yearly_month_day_witness :
    ord ⟨2024, 1, 26⟩ < ord ⟨2025, 1, 31⟩ ∧
      NextDate ⟨2024, 1, 26⟩ "20240131" "y" = .ok (formatDate ⟨2025, 1, 31⟩) ∧
      (((⟨2025, 1, 31⟩ : Date).m = (⟨2024, 1, 31⟩ : Date).m ∧
          (⟨2025, 1, 31⟩ : Date).d = (⟨2024, 1, 31⟩ : Date).d) ∨
        ((⟨2024, 1, 31⟩ : Date).m = 2 ∧ (⟨2024, 1, 31⟩ : Date).d = 29 ∧
          (⟨2025, 1, 31⟩ : Date).m = 3 ∧ (⟨2025, 1, 31⟩ : Date).d = 1)) :=
  yearly_month_day ⟨2024, 1, 26⟩ "20240131" ⟨2024, 1, 31⟩ ⟨2025, 1, 31⟩
    (by decide) (by decide)

/-- C3: in the annual branch, the day-31 month-end snap fires on the first
step exactly when the anchor's day is 31, and on every later iteration of the
step-until-future loop its guard — evaluated on the freshly advanced date —
is again equivalent to the anchor's day being 31. -/
theorem day31_snap_anchor_only (a : Date) (ha : Valid a) :
    ((¬ (a.m = 2 ∧ a.d = 29) ∧ a.d = 31) ↔ a.d = 31) ∧
      ∀ j,
        ((¬ ((ystepLoop^[j] (ystepFirst a)).m = 2 ∧
              (ystepLoop^[j] (ystepFirst a)).d = 29) ∧
            (addYear1 (ystepLoop^[j] (ystepFirst a))).d = 31) ↔ a.d = 31) := by
  constructor
  · constructor
    · rintro ⟨_, h⟩
      exact h
    · intro h
      exact ⟨fun hc => by omega, h⟩
  · intro j
    obtain ⟨hv, hmd⟩ := yinv_iter ha j
    constructor
    · rintro ⟨hnot29, h31⟩
      rw [addYear1_of_not29 hnot29] at h31
      have h31n : (ystepLoop^[j] (ystepFirst a)).d = 31 := h31
      rcases hmd with ⟨pm, pd⟩ | ⟨pm2, pd29, pm3, pd1⟩ <;> omega
    · intro h31a
      have hxd : (ystepLoop^[j] (ystepFirst a)).d = 31 := by
        rcases hmd with ⟨pm, pd⟩ | ⟨pm2, pd29, pm3, pd1⟩ <;> omega
      have hnot29 : ¬ ((ystepLoop^[j] (ystepFirst a)).m = 2 ∧
          (ystepLoop^[j] (ystepFirst a)).d = 29) := fun hc => by omega
      refine ⟨hnot29, ?_⟩
      rw [addYear1_of_not29 hnot29]
      exact hxd

theorem day31_snap_anchor_only_witness :
    (¬ ((ystepLoop^[0] (ystepFirst ⟨2024, 1, 31⟩)).m = 2 ∧
          (ystepLoop^[0] (ystepFirst ⟨2024, 1, 31⟩)).d = 29) ∧
        (addYear1 (ystepLoop^[0] (ystepFirst ⟨2024, 1, 31⟩))).d = 31) ↔
      (⟨2024, 1, 31⟩ : Date).d = 31 :=
  (day31_snap_anchor_only ⟨2024, 1, 31⟩ (by decide)).2 0

/-- C9: every successful run returns a date strictly after the parsed anchor:
the first step of the rule is taken unconditionally, so the result never
equals the anchor even when the anchor already lies after the reference. -/
theorem result_after_anchor (now : Date) (ds rs : String) (a x : Date)
    (hparse : parseDate ds = some a)
    (hok : nextDateD now ds rs = .ok x) :
    ord a < ord x ∧ NextDate now ds rs = .ok (formatDate x) := by
  have hva : Valid a := parseDate_valid hparse
  obtain ⟨a2, hpd2, hsh⟩ := nextDateD_ok_shape hok
  rw [hparse] at hpd2
  injection hpd2 with he
  rw [← he] at hsh
  refine ⟨?_, by unfold NextDate; rw [hok]; rfl⟩
  rcases hsh with ⟨n, hn1, hn2, hx⟩ | hx
  · subst hx
    obtain ⟨_, _, hge⟩ := stepLoop_after (addDays n) now Valid
      (fun z hz => valid_addDays n hz)
      (fun z hz => by rw [ord_addDays n hz]; omega)
      (ord now + 1) (addDays n a) (valid_addDays n hva) (by omega)
    have hfirst := ord_addDays n hva
    omega
  · subst hx
    obtain ⟨_, _, hge⟩ := stepLoop_after ystepLoop now Valid
      (fun z hz => (ystepLoop_cases hz).1)
      (fun z hz => ord_ystepLoop hz)
      (ord now + 1) (ystepFirst a)
      (by rw [ystepFirst_eq_loop]; exact (ystepLoop_cases hva).1) (by omega)
    have hfirst : ord a < ord (ystepFirst a) := by
      rw [ystepFirst_eq_loop]
      exact ord_ystepLoop hva
    omega

theorem result_after_anchor_witness :
    ord ⟨2024, 1, 26⟩ < ord ⟨2025, 1, 26⟩ ∧
      NextDate ⟨2020, 1, 1⟩ "20240126" "y" = .ok (formatDate ⟨2025, 1, 26⟩) :=
  result_after_anchor ⟨2020, 1, 1⟩ "20240126" "y" ⟨2024, 1, 26⟩ ⟨2025, 1, 26⟩
    (by decide) (by decide)

/-- C7: `NextDate` is total: on every input it either fails with one of the
four error kinds or returns, after finitely many loop iterations, a date
strictly after the reference. -/
theorem nextdate_total (now : Date) (ds rs : String) :
    (∃ e, NextDate now ds rs = .error e) ∨
      (∃ x, nextDateD now ds rs = .ok x ∧ ord now < ord x ∧
        NextDate now ds rs = .ok (formatDate x)) := by
  cases hnd : nextDateD now ds rs with
  | error e =>
    left
    exact ⟨e, by unfold NextDate; rw [hnd]; rfl⟩
  | ok x =>
    right
    refine ⟨x, rfl, ?_, by unfold NextDate; rw [hnd]; rfl⟩
    obtain ⟨a, hpd, hsh⟩ := nextDateD_ok_shape hnd
    have hva : Valid a := parseDate_valid hpd
    rcases hsh with ⟨n, hn1, hn2, hx⟩ | hx
    · subst hx
      obtain ⟨_, hafter, _⟩ := stepLoop_after (addDays n) now Valid
        (fun z hz => valid_addDays n hz)
        (fun z hz => by rw [ord_addDays n hz]; omega)
        (ord now + 1) (addDays n a) (valid_addDays n hva) (by omega)
      exact hafter
    · subst hx
      obtain ⟨_, hafter, _⟩ := stepLoop_after ystepLoop now Valid
        (fun z hz => (ystepLoop_cases hz).1)
        (fun z hz => ord_ystepLoop hz)
        (ord now + 1) (ystepFirst a)
        (by rw [ystepFirst_eq_loop]; exact (ystepLoop_cases hva).1) (by omega)
      exact hafter

/-- C10: removing both day-31 month-end snap assignments does not change
`NextDate` on any input: whenever the snap's guard holds the advanced date
already carries day 31 of a 31-day month, of which the snap recomputes the
last day. -/
theorem snap_assignments_noop (now : Date) (ds rs : String) :
    NextDate now ds rs = NextDateNoSnap now ds rs := by
  have hcore : nextDateD now ds rs = nextDateDNoSnap now ds rs := by
    unfold nextDateD nextDateDNoSnap
    by_cases h0 : rs = ""
    · rw [if_pos h0, if_pos h0]
    · rw [if_neg h0, if_neg h0]
      rcases hpd : parseDate ds with _ | a
      · rfl
      · dsimp only
        by_cases hpre : startsWithDSpace rs = true
        · rw [if_pos hpre, if_pos hpre]
        · rw [if_neg hpre, if_neg hpre]
          by_cases hy : rs = "y"
          · rw [if_pos hy, if_pos hy]
            have hva : Valid a := parseDate_valid hpd
            rw [← ystepFirst_eq_nosnap hva]
            congr 1
            apply stepLoop_congr ystepLoop ystepLoopNoSnap now Valid
              (fun z hz => (ystepLoop_cases hz).1)
              (fun z hz => ystepLoop_eq_nosnap hz)
            rw [ystepFirst_eq_loop]
            exact (ystepLoop_cases hva).1
          · rw [if_neg hy, if_neg hy]
  unfold NextDate NextDateNoSnap
  rw [hcore]

end Scheduler
